import Mathlib

/-!
Verification of the zim-mcp resource-caching and search-orchestration layer.

This file gives a shallow embedding of the Python modules
`zim_mcp/utils.py`, `zim_mcp/search_engine.py` and
`zim_mcp/content_extractor.py` and proves the specified properties about
them.  Python machine-level details are modelled as follows: Python `str`
becomes Lean `String` (both sequences of unicode code points, `len` =
`String.length`), Python `int` becomes `Int` (arbitrary precision), Python
lists become `List`, a raised exception becomes an `Except`/`Option` error
value, and the external `libzim` library is an abstract oracle record.
-/

/- ===================== Path model (utils.validate_zim_file_path) ====== -/

/-- Model of a `pathlib.Path`: an absolute flag plus the list of name
components after the root anchor.  `"../../etc/passwd"` is
`⟨false, ["..", "..", "etc", "passwd"]⟩`. -/
structure PyPath where
  absolute : Bool
  comps : List String
deriving DecidableEq, Repr

/-- `base / p` for a relative `p`: concatenation of components
(`pathlib` `/` operator, as used on line 54 of `utils.py`). -/
def pathJoin (base p : PyPath) : PyPath :=
  ⟨base.absolute, base.comps ++ p.comps⟩

/-- One step of canonicalization: `.` is dropped, `..` removes the last
component (the parent of the root is the root, as in POSIX `resolve`),
anything else is appended. -/
def resolveStep (acc : List String) (c : String) : List String :=
  if c = "." then acc
  else if c = ".." then acc.dropLast
  else acc ++ [c]

/-- `Path.resolve()` on an absolute path: canonicalize the components.
(Resolution of a relative path against the process cwd is outside the
modelled behaviour; `validate_zim_file_path` only resolves absolute paths
once the base directory is absolute, which the configuration guarantees by
calling `Path(dir).resolve()` in `config.py`.) -/
def resolvePath (p : PyPath) : PyPath :=
  ⟨true, p.comps.foldl resolveStep []⟩

/-- `Path.relative_to`: succeeds exactly when `b` is a leading run of `p`,
returning the remainder (`ValueError`, i.e. `none`, otherwise). -/
def relativeTo (p b : List String) : Option (List String) :=
  if p.take b.length = b then some (p.drop b.length) else none

/-- `utils.validate_zim_file_path` (lines 48-66): join a relative name to
the base directory, canonicalize, and fail with a `ValueError`
(`PathEscapeError` in the spec's taxonomy) unless the canonical result is
inside the canonical base directory. -/
def validate_zim_file_path (file_path base_directory : PyPath) :
    Except String PyPath :=
  let fp := if file_path.absolute then file_path
            else pathJoin base_directory file_path
  let resolved := resolvePath fp
  let baseResolved := resolvePath base_directory
  match relativeTo resolved.comps baseResolved.comps with
  | some _ => Except.ok resolved
  | none => Except.error "File path is outside allowed directory"

/- ===================== String utilities (utils.py) ==================== -/

/-- ASCII whitespace recognised by Python's `str.strip` and `\s`. -/
def pyIsSpace (c : Char) : Bool :=
  c = ' ' ∨ c = '\t' ∨ c = '\n' ∨ c = '\r' ∨ c = '\x0b' ∨ c = '\x0c'

/-- Strip `pyIsSpace` characters from both ends (Python `str.strip()`). -/
def pyStripChars (l : List Char) : List Char :=
  ((l.dropWhile pyIsSpace).reverse.dropWhile pyIsSpace).reverse

/-- Python `str.strip()`. -/
def pyStrip (s : String) : String := ⟨pyStripChars s.data⟩

/-- Python slice `l[:stop]` for a possibly negative `stop`. -/
def pyTake (l : List Char) (stop : Int) : List Char :=
  l.take (if stop < 0 then ((l.length : Int) + stop).toNat else stop.toNat)

/-- `utils.truncate_text` (lines 83-88): texts no longer than
`max_length` pass through; longer ones are cut to
`max_length - len(suffix)` characters and the suffix is appended.  The
call sites use the default suffix `"..."`. -/
def truncate_text (text : String) (max_length : Int) (suffix : String) :
    String :=
  if (text.length : Int) ≤ max_length then text
  else ⟨pyTake text.data (max_length - (suffix.length : Int))⟩ ++ suffix

/-- Scan for the terminator of `<[^>]+>` given the characters after the
first non-`>` character following `<`: the characters after the first
`>`, if any. -/
def tagEndTail : List Char → Option (List Char)
  | [] => none
  | c :: rest => if c = '>' then some rest else tagEndTail rest

/-- Given the characters following a `<`, the characters after a matching
`<[^>]+>` tag, if the regex matches here (at least one non-`>` character
before the closing `>`). -/
def tagEnd : List Char → Option (List Char)
  | [] => none
  | c :: rest => if c = '>' then none else tagEndTail rest

theorem tagEndTail_length {l r : List Char} (h : tagEndTail l = some r) :
    r.length < l.length := by
  induction l with
  | nil => simp [tagEndTail] at h
  | cons c rest ih =>
    by_cases hc : c = '>'
    · simp [tagEndTail, hc] at h
      simp [← h]
    · simp [tagEndTail, hc] at h
      exact Nat.lt_trans (ih h) (Nat.lt_succ_self _)

theorem tagEnd_length {l r : List Char} (h : tagEnd l = some r) :
    r.length < l.length := by
  cases l with
  | nil => simp [tagEnd] at h
  | cons c rest =>
    by_cases hc : c = '>'
    · simp [tagEnd, hc] at h
    · simp [tagEnd, hc] at h
      exact Nat.lt_trans (tagEndTail_length h) (Nat.lt_succ_self _)

/-- `re.sub(r'<[^>]+>', '', ·)`: remove every non-overlapping tag match,
scanning left to right. -/
def stripTags : List Char → List Char
  | [] => []
  | c :: rest =>
    if c = '<' then
      match h : tagEnd rest with
      | some rem => stripTags rem
      | none => c :: stripTags rest
    else c :: stripTags rest
termination_by l => l.length
decreasing_by
  · exact Nat.lt_trans (tagEnd_length h) (Nat.lt_succ_self _)
  · exact Nat.lt_succ_self _
  · exact Nat.lt_succ_self _

/-- `re.sub(r'\s+', ' ', ·)`: collapse every maximal whitespace run into
a single space. -/
def collapseWs (l : List Char) : List Char :=
  l.foldr
    (fun c acc =>
      if pyIsSpace c then
        match acc with
        | ' ' :: _ => acc
        | _ => ' ' :: acc
      else c :: acc) []

/-- `utils.clean_html_content` (lines 91-97): drop HTML tags, collapse
whitespace, and strip the ends. -/
def clean_html_content (html_content : String) : String :=
  ⟨pyStripChars (collapseWs (stripTags html_content.data))⟩

/-- `utils.extract_text_preview` (lines 170-179): clean HTML when both
angle brackets occur, then truncate to the preview length. -/
def extract_text_preview (content : String) (max_length : Int) : String :=
  let cleaned :=
    if content.data.contains '<' ∧ content.data.contains '>' then
      clean_html_content content
    else content
  truncate_text cleaned max_length "..."

/-- The two validation failures of `utils.validate_search_query`
(`ValueError`s in the source; `EmptyQueryError` / `QueryTooLongError` in
the spec's taxonomy). -/
inductive QueryError where
  | empty
  | tooLong
deriving DecidableEq, Repr

/-- `utils.validate_search_query` (lines 155-167): reject an empty
trimmed query, then a trimmed query longer than 1000 characters;
otherwise return the trimmed query. -/
def validate_search_query (query : String) : Except QueryError String :=
  if pyStrip query = "" then Except.error QueryError.empty
  else
    let cleaned := pyStrip query
    if cleaned.length > 1000 then Except.error QueryError.tooLong
    else Except.ok cleaned

/- ===================== LRUCache (utils.py lines 111-152) ============== -/

/-- First-match association-list lookup (the `dict` lookup of
`LRUCache.cache`; the dict and the `access_order` list always hold the
same keys, so a single key-value list ordered like `access_order` —
least recently used first — models the whole object). -/
def alookup (k : String) : List (String × α) → Option α
  | [] => none
  | (k', v) :: rest => if k' = k then some v else alookup k rest

/-- Remove the first entry with the given key
(`access_order.remove(key)` plus `del cache[key]`). -/
def aerase (k : String) : List (String × α) → List (String × α)
  | [] => []
  | (k', v) :: rest => if k' = k then rest else (k', v) :: aerase k rest

/-- `utils.LRUCache`: `max_size` plus the entries in recency order
(head = least recently used, tail = most recently used). -/
structure LRUCache (α : Type) where
  max_size : Int
  entries : List (String × α)
deriving DecidableEq, Repr

/-- `LRUCache.__init__` (lines 114-117): stores the capacity without any
validation and starts empty. -/
def LRUCache.init (max_size : Int) : LRUCache α := ⟨max_size, []⟩

/-- `LRUCache.get` (lines 119-126): on a hit, move the key to the
most-recently-used end and return the value with the updated cache; on a
miss return `none` and leave the cache unchanged. -/
def LRUCache.get (c : LRUCache α) (key : String) :
    Option α × LRUCache α :=
  match alookup key c.entries with
  | some v => (some v, ⟨c.max_size, aerase key c.entries ++ [(key, v)]⟩)
  | none => (none, c)

/-- `LRUCache.put` (lines 128-143): replace an existing key (moving it to
the most-recently-used end); otherwise, when `len(cache) >= max_size`,
evict the least-recently-used entry first — `access_order.pop(0)` raises
`IndexError` (modelled as `none`) when the cache is empty, which happens
exactly when `max_size ≤ 0` — then append the new entry. -/
def LRUCache.put (c : LRUCache α) (key : String) (value : α) :
    Option (LRUCache α) :=
  match alookup key c.entries with
  | some _ => some ⟨c.max_size, aerase key c.entries ++ [(key, value)]⟩
  | none =>
    if (c.entries.length : Int) ≥ c.max_size then
      match c.entries with
      | [] => none
      | _ :: rest => some ⟨c.max_size, rest ++ [(key, value)]⟩
    else some ⟨c.max_size, c.entries ++ [(key, value)]⟩

/-- `LRUCache.clear` (lines 145-148). -/
def LRUCache.clear (c : LRUCache α) : LRUCache α := ⟨c.max_size, []⟩

/-- `LRUCache.size` (lines 150-152). -/
def LRUCache.size (c : LRUCache α) : Nat := c.entries.length

/-- A `get` or `put` request against an `LRUCache`. -/
inductive CacheOp (α : Type) where
  | get (key : String)
  | put (key : String) (value : α)

/-- Apply one cache operation (an uncaught `IndexError` from `put` is
`none`). -/
def applyOp (c : LRUCache α) : CacheOp α → Option (LRUCache α)
  | CacheOp.get k => some (c.get k).2
  | CacheOp.put k v => c.put k v

/-- Run a sequence of cache operations. -/
def runOps (ops : List (CacheOp α)) (c : LRUCache α) :
    Option (LRUCache α) :=
  match ops with
  | [] => some c
  | op :: rest => (applyOp c op).bind (runOps rest)

/- ===================== Search engine (search_engine.py) =============== -/

/-- `SearchEngineResult` (lines 16-24).  `score` is a Python float that is
only ever set to the literal `0.0` (no arithmetic is performed on it), so
it is modelled as an exact rational. -/
structure SearchEngineResult where
  zim_file : String
  path : String
  title : String
  score : Rat
  preview : String
  is_redirect : Bool
deriving DecidableEq, Repr

/-- An entry as exposed by `libzim.reader`. -/
structure ZimEntry where
  path : String
  title : String
  is_redirect : Bool
deriving DecidableEq, Repr

/-- The opaque `libzim` capability as seen by `SearchEngine`:
deterministic, read-only archives for the lifetime of one configuration.
`hasSearcher f` is true when `_get_searcher` succeeds for `f` (archive
available with a fulltext index); `getResults f q start max` are the hit
paths of `search.getResults(start, max)`; `getEntry f p` is
`archive.get_entry_by_path(p)` with `none` for a raised lookup error;
`hasArchive` models `get_archive` succeeding; `discovered` models
`discover_zim_files()` as (filename, has_fulltext_index) pairs. -/
structure ZimOracle where
  hasSearcher : String → Bool
  getResults : String → String → Nat → Nat → List String
  getEntry : String → String → Option ZimEntry
  hasArchive : String → Bool
  discovered : List (String × Bool)

/-- `SearchEngine.search_single_zim` (lines 66-111).  The surrounding
`try`/`except (OSError, ValueError, RuntimeError)` catches the
`ValueError` raised by `validate_search_query`, so an invalid query
produces an empty result list rather than an error.  Entries that fail to
resolve are skipped (`filterMap`). -/
def search_single_zim (o : ZimOracle) (zim_file query : String)
    (max_results start_offset : Nat) : List SearchEngineResult :=
  match validate_search_query query with
  | Except.error _ => []
  | Except.ok clean_query =>
    if o.hasSearcher zim_file then
      (o.getResults zim_file clean_query start_offset max_results).filterMap
        (fun p => (o.getEntry zim_file p).map
          (fun e =>
            { zim_file := zim_file, path := p, title := e.title,
              score := 0, preview := "", is_redirect := e.is_redirect }))
    else []

/-- Stable insertion step: place `a` before the first element it compares
`le` to. -/
def insertLe (le : α → α → Bool) (a : α) : List α → List α
  | [] => [a]
  | b :: rest => if le a b then a :: b :: rest else b :: insertLe le a rest

/-- Stable sort (insertion sort).  For a total preorder `le` this computes
the same list as Python's stable `list.sort`/`sorted`: each element is
placed before the later elements it does not strictly follow. -/
def sortByLe (le : α → α → Bool) : List α → List α
  | [] => []
  | a :: rest => insertLe le a (sortByLe le rest)

/-- The f-string cache key of `search_multiple_zim` line 122:
`','.join(sorted(zim_files)) + '|' + clean_query + '|' + str(max_results)
+ '|' + str(start_offset)`. -/
def mkCacheKey (zim_files : List String) (clean_query : String)
    (max_results start_offset : Nat) : String :=
  String.intercalate "," (sortByLe (fun a b => decide (a ≤ b)) zim_files)
    ++ "|" ++ clean_query ++ "|" ++ Nat.repr max_results
    ++ "|" ++ Nat.repr start_offset

/-- The relevance order of line 147: ascending title length. -/
def byTitleLen (a b : SearchEngineResult) : Bool :=
  decide (a.title.length ≤ b.title.length)

/-- `SearchEngine.search_multiple_zim` (lines 114-160).  Returns the
result list, the updated search cache, and the number of per-archive
`search_single_zim` calls performed.  The parallel and sequential
branches of the source perform the identical loop, so both are the single
`bind` below.  A `ValueError` from validation is caught (empty result); an
`IndexError` escaping `LRUCache.put` (possible only for a cache of
capacity ≤ 0) is not caught by the `except` clause and is `none`. -/
def search_multiple_zim (o : ZimOracle)
    (cache : LRUCache (List SearchEngineResult)) (zim_files : List String)
    (query : String) (max_results start_offset : Nat) :
    Option (List SearchEngineResult ×
      LRUCache (List SearchEngineResult) × Nat) :=
  match validate_search_query query with
  | Except.error _ => some ([], cache, 0)
  | Except.ok clean_query =>
    match cache.get (mkCacheKey zim_files clean_query max_results
        start_offset) with
    | (some cached_results, c₁) => some (cached_results, c₁, 0)
    | (none, c₁) =>
      match c₁.put (mkCacheKey zim_files clean_query max_results
          start_offset)
          (((sortByLe byTitleLen (zim_files.flatMap (fun f =>
              search_single_zim o f clean_query max_results 0))).drop
              start_offset).take max_results) with
      | none => none
      | some c₂ =>
        some ((((sortByLe byTitleLen (zim_files.flatMap (fun f =>
            search_single_zim o f clean_query max_results 0))).drop
            start_offset).take max_results), c₂, zim_files.length)

/-- `SearchEngine.search_all_zim_files` (lines 162-186): keep the
discovered files with a fulltext index and delegate. -/
def search_all_zim_files (o : ZimOracle)
    (cache : LRUCache (List SearchEngineResult)) (query : String)
    (max_results start_offset : Nat) :
    Option (List SearchEngineResult ×
      LRUCache (List SearchEngineResult) × Nat) :=
  if ((o.discovered.filter (fun fi => fi.2)).map (fun fi => fi.1)).isEmpty
  then some ([], cache, 0)
  else search_multiple_zim o cache
    ((o.discovered.filter (fun fi => fi.2)).map (fun fi => fi.1))
    query max_results start_offset

/-- Python `str.lower`. -/
def pyLower (s : String) : String := s.toLower

/-- Python substring test `pat in hay`. -/
def containsSub (hay pat : String) : Bool :=
  (List.range (hay.data.length + 1)).any
    (fun i => decide ((hay.data.drop i).take pat.data.length = pat.data))

/-- The sampling loop of `browse_entries_by_pattern` (lines 221-248): at
most `limit * 5` draws are consumed (the `range(limit * 5)` bound), the
loop stops once `limit` matches are collected, a draw that raises (or a
non-matching entry) is skipped.  A falsy pattern — absent or the empty
string — disables the corresponding check. -/
def browseGo (zf : String) (pp tp : Option String) :
    List (Option ZimEntry) → Nat → List SearchEngineResult
  | [], _ => []
  | _ :: _, 0 => []
  | d :: rest, remaining + 1 =>
    match d with
    | none => browseGo zf pp tp rest (remaining + 1)
    | some e =>
      if (match pp with
          | some p => decide (p = "")
              || containsSub (pyLower e.path) (pyLower p)
          | none => true) &&
         (match tp with
          | some t => decide (t = "")
              || containsSub (pyLower e.title) (pyLower t)
          | none => true) then
        { zim_file := zf, path := e.path, title := e.title, score := 0,
          preview := "", is_redirect := e.is_redirect }
          :: browseGo zf pp tp rest remaining
      else browseGo zf pp tp rest (remaining + 1)

/-- `SearchEngine.browse_entries_by_pattern` (lines 206-254).  `draws` is
the stream of `get_random_entry()` outcomes (`none` for a raised error). -/
def browse_entries_by_pattern (o : ZimOracle)
    (draws : List (Option ZimEntry)) (zim_file : String)
    (path_pattern title_pattern : Option String) (limit : Nat) :
    List SearchEngineResult :=
  if o.hasArchive zim_file then
    browseGo zim_file path_pattern title_pattern (draws.take (limit * 5)) limit
  else []

/- ===================== Content extractor (content_extractor.py) ======= -/

/-- The configuration fields consumed by the modelled components
(`config.ZimServerConfig`). -/
structure ZimServerConfig where
  max_content_length : Int
  search_cache_size : Int
  enable_parallel_search : Bool
deriving DecidableEq, Repr

/-- An entry as handed to `ContentExtractor._extract_from_entry`:
identity, redirect information and the raw bytes of
`entry.get_item().content` (each a value in `0..255`).
`redirect_target` is `entry.redirect_entry.path` when that attribute is
present (`none` models a missing attribute). -/
structure ReaderEntry where
  path : String
  title : String
  is_redirect : Bool
  redirect_target : Option String
  content : List Nat
deriving DecidableEq, Repr

/-- A UTF-8 continuation byte. -/
def isCont (b : Nat) : Bool := 0x80 ≤ b ∧ b ≤ 0xBF

/-- Strict UTF-8 decoding of a byte list (Python `bytes.decode('utf-8')`):
rejects truncated sequences, stray continuation bytes, overlong forms,
surrogates and code points beyond `0x10FFFF`; `none` models the raised
`UnicodeDecodeError`. -/
def utf8Decode : List Nat → Option (List Char)
  | [] => some []
  | b :: rest =>
    if b < 0x80 then (utf8Decode rest).map (fun cs => Char.ofNat b :: cs)
    else if 0xC2 ≤ b ∧ b ≤ 0xDF then
      match rest with
      | b1 :: r =>
        if isCont b1 then
          (utf8Decode r).map
            (fun cs => Char.ofNat ((b - 0xC0) * 0x40 + (b1 - 0x80)) :: cs)
        else none
      | [] => none
    else if (b = 0xE0 ∨ (0xE1 ≤ b ∧ b ≤ 0xEF)) then
      match rest with
      | b1 :: b2 :: r =>
        if (if b = 0xE0 then 0xA0 ≤ b1 ∧ b1 ≤ 0xBF
            else if b = 0xED then 0x80 ≤ b1 ∧ b1 ≤ 0x9F
            else isCont b1) ∧ isCont b2 then
          (utf8Decode r).map
            (fun cs => Char.ofNat
              ((b - 0xE0) * 0x1000 + (b1 - 0x80) * 0x40 + (b2 - 0x80)) :: cs)
        else none
      | _ => none
    else if (0xF0 ≤ b ∧ b ≤ 0xF4) then
      match rest with
      | b1 :: b2 :: b3 :: r =>
        if (if b = 0xF0 then 0x90 ≤ b1 ∧ b1 ≤ 0xBF
            else if b = 0xF4 then 0x80 ≤ b1 ∧ b1 ≤ 0x8F
            else isCont b1) ∧ isCont b2 ∧ isCont b3 then
          (utf8Decode r).map
            (fun cs => Char.ofNat
              ((b - 0xF0) * 0x40000 + (b1 - 0x80) * 0x1000
                + (b2 - 0x80) * 0x40 + (b3 - 0x80)) :: cs)
        else none
      | _ => none
    else none

/-- `ContentExtractor._decode_content` (lines 117-128): UTF-8 first, then
latin-1.  Decoding with latin-1 cannot fail (every byte maps to the code
point of the same value), so the final `errors='replace'` branch of the
source is unreachable and decoding always produces a string. -/
def decode_content (content_bytes : List Nat) : String :=
  match utf8Decode content_bytes with
  | some cs => ⟨cs⟩
  | none => ⟨content_bytes.map Char.ofNat⟩

/-- `ContentExtractor._format_content` (lines 130-140). -/
def format_content (content : String) (format_type : String) : String :=
  if format_type = "text" then clean_html_content content
  else if format_type = "html" then content
  else if format_type = "raw" then content
  else clean_html_content content

/-- `ExtractedContentInfo` (lines 17-28).  `metadata` is the string-keyed
dict built by `_extract_metadata`. -/
structure ExtractedContentInfo where
  path : String
  title : String
  content : String
  content_type : String
  content_length : Nat
  preview : String
  is_redirect : Bool
  redirect_target : String
  metadata : List (String × String)
deriving DecidableEq, Repr

/-- Which effects `_extract_from_entry` performed on the entry's payload:
whether the raw bytes were materialized (`bytes(item.content)`) and
whether they were decoded to text. -/
structure ExtractTrace where
  read_bytes : Bool
  decoded : Bool
deriving DecidableEq, Repr

/-- `ContentExtractor._extract_from_entry` (lines 67-115), instrumented
with an `ExtractTrace`.  The regex pattern-scanning of
`_extract_metadata` is abstracted as the parameter `extractMeta` (the
properties proved below hold for every value of it).  Lines 71-73 fetch
the item and materialize its bytes before the redirect test, so
`read_bytes` is `true` on every path. -/
def extract_from_entry (cfg : ZimServerConfig)
    (extractMeta : String → List (String × String))
    (entry : ReaderEntry) (format_type : String) :
    ExtractedContentInfo × ExtractTrace :=
  let content_bytes := entry.content
  if entry.is_redirect then
    ({ path := entry.path, title := entry.title,
       content := "[This is a redirect]", content_type := "redirect",
       content_length := 0, preview := "[Redirect]", is_redirect := true,
       redirect_target := entry.redirect_target.getD "", metadata := [] },
     { read_bytes := true, decoded := false })
  else
    let content := decode_content content_bytes
    let formatted_content := format_content content format_type
    let preview := extract_text_preview formatted_content 200
    let final_content :=
      if (formatted_content.length : Int) > cfg.max_content_length then
        truncate_text formatted_content cfg.max_content_length "..."
      else formatted_content
    ({ path := entry.path, title := entry.title, content := final_content,
       content_type := format_type, content_length := content_bytes.length,
       preview := preview, is_redirect := false, redirect_target := "",
       metadata := extractMeta content },
     { read_bytes := true, decoded := true })

/-- `ContentExtractor.extract_entry_content` (lines 39-51): resolve the
entry through the manager (`none` when absent or when extraction raises)
and extract. -/
def extract_entry_content (cfg : ZimServerConfig)
    (extractMeta : String → List (String × String))
    (managerGetEntry : String → String → Option ReaderEntry)
    (zim_file entry_path format_type : String) :
    Option (ExtractedContentInfo × ExtractTrace) :=
  (managerGetEntry zim_file entry_path).map
    (fun e => extract_from_entry cfg extractMeta e format_type)

/- ===================== Concrete archive worlds and pagination ========= -/

/-- A small concrete archive world: one archive `a.zim` with a searcher
that returns the single hit `A/p1` for every query. -/
def oneHitOracle : ZimOracle where
  hasSearcher := fun _ => true
  getResults := fun _ _ start max_results =>
    (["A/p1"].drop start).take max_results
  getEntry := fun _ p => some ⟨p, "T", false⟩
  hasArchive := fun _ => true
  discovered := [("a.zim", true)]

/-- An archive world with no archives at all. -/
def nullOracle : ZimOracle where
  hasSearcher := fun _ => false
  getResults := fun _ _ _ _ => []
  getEntry := fun _ _ => none
  hasArchive := fun _ => false
  discovered := []

/-- The pagination loop of the spec's invariant: call
`search_multiple_zim` at offsets `0, L, 2L, …` (threading the cache) and
concatenate the pages until a page shorter than `L` is returned (that
short page included).  `fuel` bounds the number of pages. -/
def runPages (o : ZimOracle) (zim_files : List String) (query : String)
    (limit : Nat) : LRUCache (List SearchEngineResult) → Nat → Nat →
    Option (List SearchEngineResult × LRUCache (List SearchEngineResult))
  | c, _, 0 => some ([], c)
  | c, offset, fuel + 1 =>
    match search_multiple_zim o c zim_files query limit offset with
    | none => none
    | some (page, c', _) =>
      if page.length < limit then some (page, c')
      else
        match runPages o zim_files query limit c' (offset + limit) fuel with
        | none => none
        | some (rest, c'') => some (page ++ rest, c'')

/-- One archive `a.zim` whose index holds two matches for every query. -/
def twoHitOracle : ZimOracle where
  hasSearcher := fun _ => true
  getResults := fun _ _ start max_results =>
    ((["A/p1", "A/p2"]).drop start).take max_results
  getEntry := fun _ p => some ⟨p, p, false⟩
  hasArchive := fun _ => true
  discovered := [("a.zim", true)]

/- ===================== Lemmas about the LRU cache ===================== -/

theorem alookup_append_none {α : Type} {k : String}
    {l1 l2 : List (String × α)} (h : alookup k l1 = none) :
    alookup k (l1 ++ l2) = alookup k l2 := by
  induction l1 with
  | nil => rfl
  | cons e rest ih =>
    obtain ⟨k', v⟩ := e
    by_cases he : k' = k
    · simp [alookup, he] at h
    · simp [alookup, he] at h ⊢
      exact ih h

theorem alookup_self_append {α : Type} {k : String} {v : α}
    {l : List (String × α)} (h : alookup k l = none) :
    alookup k (l ++ [(k, v)]) = some v := by
  rw [alookup_append_none h]
  simp [alookup]

theorem alookup_none_of_not_mem_keys {α : Type} {k : String}
    {l : List (String × α)} (h : k ∉ l.map Prod.fst) :
    alookup k l = none := by
  induction l with
  | nil => rfl
  | cons e rest ih =>
    obtain ⟨k', v⟩ := e
    rw [List.map_cons, List.mem_cons] at h
    push_neg at h
    have hk : ¬ (k' = k) := fun hh => h.1 hh.symm
    simp [alookup, hk, ih h.2]

theorem length_aerase {α : Type} {k : String} {v : α} :
    ∀ {l : List (String × α)}, alookup k l = some v →
      l.length = (aerase k l).length + 1 := by
  intro l
  induction l with
  | nil => intro h; simp [alookup] at h
  | cons e rest ih =>
    obtain ⟨k', v'⟩ := e
    intro h
    by_cases he : k' = k
    · simp [aerase, he]
    · simp [alookup, he] at h
      simp [aerase, he, ih h]

theorem alookup_aerase_of_nodup {α : Type} {k : String} :
    ∀ {l : List (String × α)}, (l.map Prod.fst).Nodup →
      alookup k (aerase k l) = none := by
  intro l
  induction l with
  | nil => intro _; rfl
  | cons e rest ih =>
    obtain ⟨k', v'⟩ := e
    intro hnd
    rw [List.map_cons, List.nodup_cons] at hnd
    by_cases he : k' = k
    · simp only [aerase, he, if_pos]
      apply alookup_none_of_not_mem_keys
      subst he
      exact hnd.1
    · simp [aerase, he, alookup, ih hnd.2]

theorem alookup_map_pair_of_mem {α : Type} {k : String} {l : List String}
    (vals : String → α) (h : k ∈ l) :
    alookup k (l.map (fun k' => (k', vals k'))) = some (vals k) := by
  induction l with
  | nil => simp at h
  | cons e rest ih =>
    by_cases he : e = k
    · subst he; simp [alookup]
    · rcases List.mem_cons.mp h with h1 | h1
      · exact absurd h1.symm he
      · simp [alookup, he, ih h1]

theorem alookup_map_pair_of_not_mem {α : Type} {k : String}
    {l : List String} (vals : String → α) (h : k ∉ l) :
    alookup k (l.map (fun k' => (k', vals k'))) = none := by
  apply alookup_none_of_not_mem_keys
  simpa using h

theorem runOps_append {α : Type} (l1 l2 : List (CacheOp α)) :
    ∀ c, runOps (l1 ++ l2) c = (runOps l1 c).bind (runOps l2) := by
  induction l1 with
  | nil => intro c; rfl
  | cons op rest ih =>
    intro c
    simp [runOps]
    cases applyOp c op with
    | none => rfl
    | some c' => simp [ih c']

/-- `put` cannot raise when the capacity is at least one. -/
theorem put_succeeds {α : Type} {c : LRUCache α} (hcap : 1 ≤ c.max_size)
    (k : String) (v : α) : ∃ c', c.put k v = some c' := by
  unfold LRUCache.put
  split
  · exact ⟨_, rfl⟩
  · split
    · split
      · rename_i hfull xs heq
        exfalso
        rw [heq] at hfull
        simp at hfull
        omega
      · exact ⟨_, rfl⟩
    · exact ⟨_, rfl⟩

/-- After a successful `put`, the key is present with the put value
(needs the duplicate-free-keys invariant that every reachable cache
satisfies). -/
theorem alookup_put {α : Type} {c c' : LRUCache α} {k : String} {v : α}
    (hwf : (c.entries.map Prod.fst).Nodup) (h : c.put k v = some c') :
    alookup k c'.entries = some v := by
  unfold LRUCache.put at h
  split at h
  · rename_i v' halo
    injection h with h
    rw [← h]
    exact alookup_self_append (alookup_aerase_of_nodup hwf)
  · rename_i halo
    split at h
    · split at h
      · exact absurd h (by simp)
      · rename_i hfull e rest heq
        injection h with h
        rw [← h]
        apply alookup_self_append
        rw [heq] at halo
        obtain ⟨k', v'⟩ := e
        by_cases hk : k' = k
        · simp [alookup, hk] at halo
        · simpa [alookup, hk] using halo
    · injection h with h
      rw [← h]
      exact alookup_self_append halo

/-- `get` never changes the number of entries or the capacity. -/
theorem get_preserves {α : Type} (c : LRUCache α) (k : String) :
    (c.get k).2.size = c.size ∧ (c.get k).2.max_size = c.max_size := by
  unfold LRUCache.get
  split
  · rename_i v halo
    constructor
    · simp [LRUCache.size, ← length_aerase halo]
    · rfl
  · exact ⟨rfl, rfl⟩

/-- A single `put` against a cache of capacity `N ≥ 1` holding at most
`N` entries succeeds and keeps at most `N` entries. -/
theorem put_preserves {α : Type} {c : LRUCache α} {N : Nat} (hN : 1 ≤ N)
    (hms : c.max_size = (N : Int)) (hsz : c.size ≤ N) (k : String) (v : α) :
    ∃ c', c.put k v = some c' ∧ c'.max_size = (N : Int) ∧ c'.size ≤ N := by
  unfold LRUCache.put
  split
  · rename_i v' halo
    refine ⟨_, rfl, hms, ?_⟩
    simpa [LRUCache.size, ← length_aerase halo] using hsz
  · split
    · split
      · rename_i hfull xs heq
        exfalso
        rw [heq, hms] at hfull
        simp at hfull
        omega
      · rename_i hfull e rest heq
        refine ⟨_, rfl, hms, ?_⟩
        have := congrArg List.length heq
        simp at this
        simp [LRUCache.size] at hsz ⊢
        omega
    · rename_i hfull
      refine ⟨_, rfl, hms, ?_⟩
      rw [hms] at hfull
      simp [LRUCache.size] at hsz ⊢
      omega

/-- Any operation sequence on a cache within its capacity stays within
its capacity and never raises. -/
theorem runOps_preserves {α : Type} {N : Nat} (hN : 1 ≤ N)
    (ops : List (CacheOp α)) :
    ∀ c : LRUCache α, c.max_size = (N : Int) → c.size ≤ N →
      ∃ c', runOps ops c = some c' ∧ c'.max_size = (N : Int) ∧
        c'.size ≤ N := by
  induction ops with
  | nil => intro c hms hsz; exact ⟨c, rfl, hms, hsz⟩
  | cons op rest ih =>
    intro c hms hsz
    cases op with
    | get k =>
      obtain ⟨hsz', hms'⟩ := get_preserves c k
      obtain ⟨c', hrun, h1, h2⟩ :=
        ih (c.get k).2 (hms' ▸ hms) (hsz' ▸ hsz)
      exact ⟨c', by simpa [runOps, applyOp] using hrun, h1, h2⟩
    | put k v =>
      obtain ⟨c₁, hput, hms₁, hsz₁⟩ := put_preserves hN hms hsz k v
      obtain ⟨c', hrun, h1, h2⟩ := ih c₁ hms₁ hsz₁
      exact ⟨c', by simp [runOps, applyOp, hput, hrun], h1, h2⟩

/-- A `put` of a fresh key into a full cache of capacity `N ≥ 1` evicts
exactly the least-recently-used entry (the head) and appends the new
entry at the most-recently-used end. -/
theorem put_evicts_lru {α : Type} {c : LRUCache α} {N : Nat} {k : String}
    {v : α} (hN : 1 ≤ N) (hms : c.max_size = (N : Int))
    (hlen : c.entries.length = N) (hfresh : alookup k c.entries = none) :
    c.put k v = some ⟨c.max_size, c.entries.tail ++ [(k, v)]⟩ := by
  obtain ⟨ms, es⟩ := c
  simp only at hms hlen hfresh
  cases es with
  | nil => simp at hlen; omega
  | cons e rest =>
    simp only [LRUCache.put, hfresh]
    rw [if_pos (by rw [hms, hlen])]
    rfl

/-- Inserting a duplicate-free list of fresh keys that fits in the free
space appends them in order at the most-recently-used end. -/
theorem runOps_puts_fresh {α : Type} (vals : String → α) :
    ∀ (keys : List String) (c : LRUCache α), keys.Nodup →
      (∀ k ∈ keys, alookup k c.entries = none) →
      ((c.entries.length + keys.length : Int) ≤ c.max_size) →
      runOps (keys.map (fun k => CacheOp.put k (vals k))) c
        = some ⟨c.max_size, c.entries ++ keys.map (fun k => (k, vals k))⟩ := by
  intro keys
  induction keys with
  | nil =>
    intro c _ _ _
    simp [runOps]
  | cons k rest ih =>
    intro c hnd hfresh hlen
    rw [List.nodup_cons] at hnd
    have halo : alookup k c.entries = none := hfresh k (by simp)
    have hlt : ¬ ((c.entries.length : Int) ≥ c.max_size) := by
      simp at hlen
      push_cast at hlen ⊢
      omega
    have hput : c.put k (vals k)
        = some ⟨c.max_size, c.entries ++ [(k, vals k)]⟩ := by
      unfold LRUCache.put
      rw [halo, if_neg hlt]
    simp only [List.map_cons, runOps, applyOp, hput, Option.some_bind]
    rw [ih ⟨c.max_size, c.entries ++ [(k, vals k)]⟩ hnd.2 ?_ ?_]
    · simp
    · intro k' hk'
      have hne : ¬ (k = k') := fun hh => hnd.1 (hh ▸ hk')
      rw [alookup_append_none (hfresh k' (by simp [hk']))]
      simp [alookup, hne]
    · simp at hlen ⊢
      push_cast at hlen ⊢
      omega

/-- The value component returned by `get` is the plain lookup. -/
theorem get_fst {α : Type} (c : LRUCache α) (k : String) :
    (c.get k).1 = alookup k c.entries := by
  unfold LRUCache.get
  split
  · rename_i v halo
    exact halo.symm
  · rename_i halo
    exact halo.symm

/-- C2: for every `LRUCache` of capacity `N ≥ 1`: (i) any sequence of
`get`/`put` operations from a fresh cache keeps at most `N` entries (and
never raises); (ii) a `put` of a new key while `N` entries are present
evicts exactly the least-recently-used entry at that moment and appends
the new key at the most-recently-used end; (iii) after inserting `N + 1`
distinct keys into a fresh cache exactly the `N` most-recently-used keys
remain retrievable and the first-inserted key is gone. -/
theorem claim_lru_capacity_eviction :
    (∀ (α : Type) (N : Nat) (ops : List (CacheOp α)), 1 ≤ N →
      ∃ c', runOps ops (LRUCache.init ((N : Nat) : Int)) = some c' ∧
        c'.size ≤ N) ∧
    (∀ (α : Type) (N : Nat) (c : LRUCache α) (k : String) (v : α), 1 ≤ N →
      c.max_size = ((N : Nat) : Int) → c.entries.length = N →
      alookup k c.entries = none →
      c.put k v = some ⟨c.max_size, c.entries.tail ++ [(k, v)]⟩) ∧
    (∀ (α : Type) (N : Nat) (k0 : String) (rest : List String)
        (vals : String → α), 1 ≤ N → (k0 :: rest).Nodup → rest.length = N →
      ∃ c', runOps ((k0 :: rest).map (fun k => CacheOp.put k (vals k)))
              (LRUCache.init ((N : Nat) : Int)) = some c' ∧
        c'.entries = rest.map (fun k => (k, vals k)) ∧
        (∀ k ∈ rest, (c'.get k).1 = some (vals k)) ∧
        (c'.get k0).1 = none) := by
  refine ⟨?_, ?_, ?_⟩
  · intro α N ops hN
    obtain ⟨c', hrun, _, hsz⟩ :=
      runOps_preserves hN ops (LRUCache.init ((N : Nat) : Int)) rfl
        (by simp [LRUCache.init, LRUCache.size])
    exact ⟨c', hrun, hsz⟩
  · intro α N c k v hN hms hlen hfresh
    exact put_evicts_lru hN hms hlen hfresh
  · intro α N k0 rest vals hN hnd hlen
    have hne : rest ≠ [] := by
      intro hh
      rw [hh] at hlen
      simp at hlen
      omega
    obtain ⟨front, la, hfr⟩ : ∃ front la, rest = front ++ [la] :=
      ⟨rest.dropLast, rest.getLast hne, (List.dropLast_append_getLast hne).symm⟩
    rw [List.nodup_cons] at hnd
    have hlaf : la ∉ front := by
      have := hnd.2
      rw [hfr] at this
      have := List.disjoint_of_nodup_append this
      intro hmem
      exact this hmem (by simp)
    have hlak0 : ¬ (la = k0) := by
      intro hh
      apply hnd.1
      rw [hfr, hh]
      simp
    -- run the first N puts (k0 and the front), then the evicting last put
    have hsplit : (k0 :: rest).map (fun k => CacheOp.put k (vals k))
        = ((k0 :: front).map (fun k => CacheOp.put k (vals k)))
          ++ [CacheOp.put la (vals la)] := by
      rw [hfr]
      simp
    have hfrontlen : front.length + 1 = N := by
      rw [hfr] at hlen
      simpa using hlen
    have hndfront : (k0 :: front).Nodup := by
      rw [List.nodup_cons]
      refine ⟨fun hmem => hnd.1 (by rw [hfr]; exact List.mem_append_left _ hmem), ?_⟩
      have := hnd.2
      rw [hfr] at this
      exact (List.nodup_append.mp this).1
    have hrun1 := runOps_puts_fresh vals (k0 :: front)
      (LRUCache.init ((N : Nat) : Int)) hndfront
      (by intro k _; rfl)
      (by simp [LRUCache.init]; omega)
    have hrun1' : runOps ((k0 :: front).map (fun k => CacheOp.put k (vals k)))
        (LRUCache.init ((N : Nat) : Int))
        = some ⟨((N : Nat) : Int), (k0 :: front).map (fun k => (k, vals k))⟩ := by
      rw [hrun1]
      simp [LRUCache.init]
    have hfresh2 : alookup la ((k0 :: front).map (fun k => (k, vals k)))
        = none := by
      apply alookup_map_pair_of_not_mem
      simp [hlak0, hlaf]
    have hput2 := put_evicts_lru (c := ⟨((N : Nat) : Int),
        (k0 :: front).map (fun k => (k, vals k))⟩) (k := la) (v := vals la)
      hN rfl (by simpa using hfrontlen) hfresh2
    refine ⟨⟨((N : Nat) : Int), rest.map (fun k => (k, vals k))⟩, ?_, rfl, ?_, ?_⟩
    · rw [hsplit, runOps_append, hrun1']
      simp only [Option.some_bind, runOps, applyOp]
      rw [hput2]
      simp [hfr]
    · intro k hk
      rw [get_fst]
      exact alookup_map_pair_of_mem vals hk
    · rw [get_fst]
      apply alookup_map_pair_of_not_mem
      exact hnd.1

/-- C2 witness: a concrete capacity-2 cache run, a concrete eviction at
capacity, and three distinct inserts into a capacity-2 cache. -/
theorem claim_lru_capacity_eviction_witness :
    (∃ c', runOps [CacheOp.put "a" 1, CacheOp.get "a", CacheOp.put "b" 2,
        CacheOp.put "c" 3] (LRUCache.init (((2 : Nat) : Nat) : Int))
        = some c' ∧ c'.size ≤ 2) ∧
    ((⟨((2 : Nat) : Int), [("a", 1), ("b", 2)]⟩ : LRUCache Nat).put "c" 3
      = some ⟨((2 : Nat) : Int), [("b", 2), ("c", 3)]⟩) ∧
    (∃ c', runOps (["a", "b", "c"].map
        (fun k => CacheOp.put k ((fun _ => (0 : Nat)) k)))
        (LRUCache.init (((2 : Nat) : Nat) : Int)) = some c' ∧
      c'.entries = ["b", "c"].map (fun k => (k, (fun _ => (0 : Nat)) k)) ∧
      (∀ k ∈ ["b", "c"], (c'.get k).1 = some ((fun _ => (0 : Nat)) k)) ∧
      (c'.get "a").1 = none) := by
  refine ⟨claim_lru_capacity_eviction.1 Nat 2 _ (by decide), ?_,
    claim_lru_capacity_eviction.2.2 Nat 2 "a" ["b", "c"]
      (fun _ => (0 : Nat)) (by decide) (by decide) rfl⟩
  exact claim_lru_capacity_eviction.2.1 Nat 2
    ⟨((2 : Nat) : Int), [("a", 1), ("b", 2)]⟩ "c" 3 (by decide) rfl rfl rfl

/-- C9 counterexample: constructing an `LRUCache` with capacity `0` is
not rejected — `LRUCache.__init__` performs no validation and returns an
ordinary cache object; the failure only happens later, when the first
`put` of a new key raises `IndexError` (modelled `none`). -/
theorem claim_lru_zero_capacity_cex :
    LRUCache.init (α := Nat) 0 = ⟨0, []⟩ ∧
    (LRUCache.init (α := Nat) 0).put "key" 1 = none := ⟨rfl, rfl⟩

/-- C9 amended: construction of an `LRUCache` never fails, for any
capacity; a cache constructed with capacity ≤ 0 does not silently disable
caching — instead every `put` of a new key raises `IndexError`
(`access_order.pop(0)` on an empty list, modelled `none`). -/
theorem claim_lru_zero_capacity_amended (α : Type) (m : Int) (hm : m ≤ 0)
    (k : String) (v : α) :
    (LRUCache.init (α := α) m).max_size = m ∧
    (LRUCache.init (α := α) m).entries = [] ∧
    (LRUCache.init (α := α) m).put k v = none := by
  refine ⟨rfl, rfl, ?_⟩
  have hge : ((([] : List (String × α)).length : Int)) ≥ m := by
    simp
    omega
  simp only [LRUCache.init, LRUCache.put, alookup]
  rw [if_pos hge]

/-- C9 amended, witness at capacity 0. -/
theorem claim_lru_zero_capacity_amended_witness :
    (LRUCache.init (α := Nat) 0).max_size = 0 ∧
    (LRUCache.init (α := Nat) 0).entries = [] ∧
    (LRUCache.init (α := Nat) 0).put "key" 7 = none :=
  claim_lru_zero_capacity_amended Nat 0 (by decide) "key" 7

/- ===================== C1: path sandboxing ============================ -/

/-- C1: for every configured root and user-supplied name, path validation
returns the canonical absolute path exactly when that canonical path is a
descendant of (or equal to) the canonical root, and fails with the
path-escape `ValueError` otherwise — in particular for any relative name
whose upward `..` traversal leaves the root. -/
theorem claim_validate_path (name base : PyPath) :
    ((∃ rest, (resolvePath (if name.absolute then name
          else pathJoin base name)).comps
        = (resolvePath base).comps ++ rest) →
      validate_zim_file_path name base
        = Except.ok (resolvePath (if name.absolute then name
            else pathJoin base name)) ∧
      (resolvePath (if name.absolute then name
          else pathJoin base name)).absolute = true) ∧
    ((¬ ∃ rest, (resolvePath (if name.absolute then name
          else pathJoin base name)).comps
        = (resolvePath base).comps ++ rest) →
      validate_zim_file_path name base
        = Except.error "File path is outside allowed directory") := by
  constructor
  · rintro ⟨rest, hrest⟩
    have htake : (resolvePath (if name.absolute then name
          else pathJoin base name)).comps.take
          (resolvePath base).comps.length = (resolvePath base).comps := by
      rw [hrest]
      exact List.take_left _ _
    constructor
    · simp [validate_zim_file_path, relativeTo, htake]
    · rfl
  · intro hne
    have htake : ¬ ((resolvePath (if name.absolute then name
          else pathJoin base name)).comps.take
          (resolvePath base).comps.length = (resolvePath base).comps) := by
      intro h
      apply hne
      refine ⟨(resolvePath (if name.absolute then name
          else pathJoin base name)).comps.drop
          (resolvePath base).comps.length, ?_⟩
      conv_lhs => rw [← List.take_append_drop
        (resolvePath base).comps.length
        (resolvePath (if name.absolute then name
          else pathJoin base name)).comps]
      rw [h]
    simp [validate_zim_file_path, relativeTo, htake]

/-- C1 witness: with root `/data/zim`, the escaping relative name
`../../etc/passwd` (canonical form `/etc/passwd`) is rejected, while
`wiki.zim` resolves inside the root. -/
theorem claim_validate_path_witness :
    validate_zim_file_path ⟨false, ["..", "..", "etc", "passwd"]⟩
      ⟨true, ["data", "zim"]⟩
      = Except.error "File path is outside allowed directory" ∧
    validate_zim_file_path ⟨false, ["wiki.zim"]⟩ ⟨true, ["data", "zim"]⟩
      = Except.ok ⟨true, ["data", "zim", "wiki.zim"]⟩ := by
  constructor
  · apply (claim_validate_path ⟨false, ["..", "..", "etc", "passwd"]⟩
      ⟨true, ["data", "zim"]⟩).2
    rintro ⟨rest, h⟩
    have h' : (["etc", "passwd"] : List String)
        = "data" :: "zim" :: rest := h
    injection h' with h1 h2
    exact absurd h1 (by decide)
  · exact ((claim_validate_path ⟨false, ["wiki.zim"]⟩
      ⟨true, ["data", "zim"]⟩).1 ⟨["wiki.zim"], rfl⟩).1

/- ===================== C6: query validation =========================== -/

/-- C6 counterexample: `search_single_zim` does not surface the
validation error.  On the archive `a.zim` (whose searcher returns a hit
for every query) the empty query returns the plain empty list — exactly
what a query with no matches would return — because the `ValueError`
raised by `validate_search_query` is caught by the function's own
`except (OSError, ValueError, RuntimeError)` clause and converted into an
empty result. -/
theorem claim_query_validation_cex :
    validate_search_query "" = Except.error QueryError.empty ∧
    search_single_zim oneHitOracle "a.zim" "" 20 0 = [] ∧
    search_single_zim oneHitOracle "a.zim" "x" 20 0
      = [{ zim_file := "a.zim", path := "A/p1", title := "T", score := 0,
           preview := "", is_redirect := false }] := by
  refine ⟨rfl, rfl, ?_⟩
  decide

/-- C6 amended: `validate_search_query` itself fails with
`EmptyQueryError` on a trimmed-empty query and with `QueryTooLongError`
on a trimmed query longer than 1000 characters, before any cache or
archive handle is touched (the result of `search_single_zim` on an
invalid query does not depend on the archive world at all); but
`search_single_zim` catches the `ValueError` and returns the empty list
to its caller instead of surfacing it. -/
theorem claim_query_validation_amended (q : String) :
    (pyStrip q = "" → validate_search_query q
        = Except.error QueryError.empty) ∧
    (pyStrip q ≠ "" → (pyStrip q).length > 1000 →
      validate_search_query q = Except.error QueryError.tooLong) ∧
    (∀ e : QueryError, validate_search_query q = Except.error e →
      ∀ (o o' : ZimOracle) (f : String) (max_results start_offset : Nat),
        search_single_zim o f q max_results start_offset = [] ∧
        search_single_zim o f q max_results start_offset
          = search_single_zim o' f q max_results start_offset) := by
  refine ⟨?_, ?_, ?_⟩
  · intro h
    simp [validate_search_query, h]
  · intro h1 h2
    simp [validate_search_query, h1, h2]
  · intro e he o o' f max_results start_offset
    constructor
    · simp [search_single_zim, he]
    · simp [search_single_zim, he]

set_option maxRecDepth 10000 in
/-- C6 amended, witness: the empty query, a 1001-character query, and the
oracle-independence of the silently-swallowed error. -/
theorem claim_query_validation_amended_witness :
    validate_search_query "" = Except.error QueryError.empty ∧
    validate_search_query ⟨List.replicate 1001 'x'⟩
      = Except.error QueryError.tooLong ∧
    (search_single_zim oneHitOracle "a.zim" "" 20 0 = [] ∧
     search_single_zim oneHitOracle "a.zim" "" 20 0
       = search_single_zim nullOracle "a.zim" "" 20 0) :=
  ⟨(claim_query_validation_amended "").1 rfl,
   (claim_query_validation_amended ⟨List.replicate 1001 'x'⟩).2.1
     (by decide) (by decide),
   (claim_query_validation_amended "").2.2 QueryError.empty rfl
     oneHitOracle nullOracle "a.zim" 20 0⟩

/- ===================== C7: truncation ================================= -/

/-- C7 counterexample: with `max_content_length = 5`, extracting the
10-character raw content `0123456789` returns content of length exactly
5 (`"01..."` — the marker counts toward the limit), not the claimed
`5 + 3`. -/
theorem claim_truncation_cex :
    (extract_from_entry ⟨5, 1000, true⟩ (fun _ => [])
        ⟨"A/x", "X", false, none, [48, 49, 50, 51, 52, 53, 54, 55, 56, 57]⟩
        "raw").1.content = "01..." ∧
    (extract_from_entry ⟨5, 1000, true⟩ (fun _ => [])
        ⟨"A/x", "X", false, none, [48, 49, 50, 51, 52, 53, 54, 55, 56, 57]⟩
        "raw").1.content.length = 5 ∧
    ¬ ((extract_from_entry ⟨5, 1000, true⟩ (fun _ => [])
        ⟨"A/x", "X", false, none, [48, 49, 50, 51, 52, 53, 54, 55, 56, 57]⟩
        "raw").1.content.length = 5 + 3) := by
  refine ⟨?_, ?_, ?_⟩ <;> decide

/-- C7 amended: when the formatted content of a non-redirect entry is
longer than the configured maximum (and the maximum is at least the
3-character marker), the returned content has length exactly
`max_content_length` — the truncation marker counts toward the limit
rather than being added on top — and it consists of a prefix of the
untruncated formatted content followed by the marker. -/
theorem claim_truncation_amended (cfg : ZimServerConfig)
    (extractMeta : String → List (String × String)) (entry : ReaderEntry)
    (format_type : String) (hred : entry.is_redirect = false)
    (hlong : (((format_content (decode_content entry.content)
        format_type).length : Int)) > cfg.max_content_length)
    (hm : (3 : Int) ≤ cfg.max_content_length) :
    (extract_from_entry cfg extractMeta entry format_type).1.content
      = (⟨(format_content (decode_content entry.content)
            format_type).data.take (cfg.max_content_length - 3).toNat⟩ : String)
        ++ "..." ∧
    (((extract_from_entry cfg extractMeta entry
        format_type).1.content.length : Int)) = cfg.max_content_length ∧
    (⟨(format_content (decode_content entry.content)
        format_type).data.take (cfg.max_content_length - 3).toNat⟩ : String)
      ++ (⟨(format_content (decode_content entry.content)
        format_type).data.drop (cfg.max_content_length - 3).toNat⟩ : String)
      = format_content (decode_content entry.content) format_type := by
  have hcontent : (extract_from_entry cfg extractMeta entry
      format_type).1.content
      = truncate_text (format_content (decode_content entry.content)
          format_type) cfg.max_content_length "..." := by
    simp [extract_from_entry, hred, hlong]
  have htrunc : truncate_text (format_content (decode_content entry.content)
        format_type) cfg.max_content_length "..."
      = (⟨(format_content (decode_content entry.content)
            format_type).data.take
            (cfg.max_content_length - 3).toNat⟩ : String) ++ "..." := by
    unfold truncate_text
    rw [if_neg (not_le.mpr hlong)]
    unfold pyTake
    rw [if_neg (by
      have h3 : (("..." : String).length : Int) = 3 := rfl
      rw [h3]
      omega)]
    rfl
  refine ⟨hcontent.trans htrunc, ?_, ?_⟩
  · rw [hcontent, htrunc]
    have hlen : ((format_content (decode_content entry.content)
        format_type).data.take (cfg.max_content_length - 3).toNat).length
        = (cfg.max_content_length - 3).toNat := by
      rw [List.length_take]
      apply min_eq_left
      have : ((format_content (decode_content entry.content)
          format_type).data.length : Int)
          = ((format_content (decode_content entry.content)
              format_type).length : Int) := rfl
      omega
    rw [String.length_append]
    have : (String.mk ((format_content (decode_content entry.content)
        format_type).data.take (cfg.max_content_length - 3).toNat)).length
        = (cfg.max_content_length - 3).toNat := hlen
    rw [this]
    have h3 : ("..." : String).length = 3 := rfl
    rw [h3]
    omega
  · have : ((format_content (decode_content entry.content)
        format_type).data.take (cfg.max_content_length - 3).toNat)
        ++ ((format_content (decode_content entry.content)
        format_type).data.drop (cfg.max_content_length - 3).toNat)
        = (format_content (decode_content entry.content) format_type).data :=
      List.take_append_drop _ _
    calc (⟨(format_content (decode_content entry.content)
          format_type).data.take (cfg.max_content_length - 3).toNat⟩ : String)
        ++ (⟨(format_content (decode_content entry.content)
          format_type).data.drop (cfg.max_content_length - 3).toNat⟩ : String)
        = ⟨(format_content (decode_content entry.content)
            format_type).data⟩ := by
          apply congrArg String.mk
          exact this
      _ = format_content (decode_content entry.content) format_type := rfl

/-- C7 amended, witness at `max_content_length = 5` on a 10-character raw
content. -/
theorem claim_truncation_amended_witness :
    (extract_from_entry ⟨5, 1000, true⟩ (fun _ => [])
        ⟨"A/x", "X", false, none, [48, 49, 50, 51, 52, 53, 54, 55, 56, 57]⟩
        "raw").1.content
      = (⟨(format_content (decode_content
            [48, 49, 50, 51, 52, 53, 54, 55, 56, 57])
            "raw").data.take ((5 : Int) - 3).toNat⟩ : String) ++ "..." ∧
    (((extract_from_entry ⟨5, 1000, true⟩ (fun _ => [])
        ⟨"A/x", "X", false, none, [48, 49, 50, 51, 52, 53, 54, 55, 56, 57]⟩
        "raw").1.content.length : Int)) = (5 : Int) ∧
    (⟨(format_content (decode_content
        [48, 49, 50, 51, 52, 53, 54, 55, 56, 57])
        "raw").data.take ((5 : Int) - 3).toNat⟩ : String)
      ++ (⟨(format_content (decode_content
        [48, 49, 50, 51, 52, 53, 54, 55, 56, 57])
        "raw").data.drop ((5 : Int) - 3).toNat⟩ : String)
      = format_content (decode_content
          [48, 49, 50, 51, 52, 53, 54, 55, 56, 57]) "raw" :=
  claim_truncation_amended ⟨5, 1000, true⟩ (fun _ => [])
    ⟨"A/x", "X", false, none, [48, 49, 50, 51, 52, 53, 54, 55, 56, 57]⟩
    "raw" rfl (by decide) (by decide)

/- ===================== C8: redirect extraction ======================== -/

/-- C8 counterexample: for a concrete redirect entry the extractor
returns the non-empty placeholder content `"[This is a redirect]"` — not
empty content — and the entry's raw bytes are materialized
(`bytes(item.content)` on lines 72-73 runs before the redirect check),
though they are never decoded. -/
theorem claim_redirect_cex :
    (extract_from_entry ⟨50000, 1000, true⟩ (fun _ => [])
        ⟨"A/r", "R", true, some "A/t", [1, 2, 3]⟩ "text").1.content
      = "[This is a redirect]" ∧
    ¬ ((extract_from_entry ⟨50000, 1000, true⟩ (fun _ => [])
        ⟨"A/r", "R", true, some "A/t", [1, 2, 3]⟩ "text").1.content = "") ∧
    (extract_from_entry ⟨50000, 1000, true⟩ (fun _ => [])
        ⟨"A/r", "R", true, some "A/t", [1, 2, 3]⟩ "text").2.read_bytes
      = true := by
  refine ⟨rfl, by decide, rfl⟩

/-- C8 amended: for every redirect entry, extraction returns the sentinel
payload — `content_type = "redirect"`, the fixed placeholder content
`"[This is a redirect]"` (not empty), `content_length = 0`, preview
`"[Redirect]"`, `is_redirect = true`, and the redirect target path when
resolvable (empty string otherwise) — with the raw bytes materialized
before the redirect test but never decoded. -/
theorem claim_redirect_amended (cfg : ZimServerConfig)
    (extractMeta : String → List (String × String)) (entry : ReaderEntry)
    (format_type : String) (hred : entry.is_redirect = true) :
    extract_from_entry cfg extractMeta entry format_type
      = ({ path := entry.path, title := entry.title,
           content := "[This is a redirect]", content_type := "redirect",
           content_length := 0, preview := "[Redirect]",
           is_redirect := true,
           redirect_target := entry.redirect_target.getD "",
           metadata := [] },
         { read_bytes := true, decoded := false }) := by
  simp [extract_from_entry, hred]

/-- C8 amended, witness on a concrete redirect entry with a resolvable
target. -/
theorem claim_redirect_amended_witness :
    extract_from_entry ⟨50000, 1000, true⟩ (fun _ => [])
        ⟨"A/r", "R", true, some "A/t", [1, 2, 3]⟩ "text"
      = ({ path := "A/r", title := "R",
           content := "[This is a redirect]", content_type := "redirect",
           content_length := 0, preview := "[Redirect]",
           is_redirect := true, redirect_target := "A/t",
           metadata := [] },
         { read_bytes := true, decoded := false }) :=
  claim_redirect_amended ⟨50000, 1000, true⟩ (fun _ => [])
    ⟨"A/r", "R", true, some "A/t", [1, 2, 3]⟩ "text" rfl

/- ===================== C10: scores are always zero ==================== -/

theorem mem_insertLe {le : α → α → Bool} {a x : α} :
    ∀ {l : List α}, x ∈ insertLe le a l → x = a ∨ x ∈ l := by
  intro l
  induction l with
  | nil => intro h; simp [insertLe] at h; exact Or.inl h
  | cons b rest ih =>
    intro h
    unfold insertLe at h
    by_cases hle : le a b
    · rw [if_pos hle] at h
      rcases List.mem_cons.mp h with h1 | h1
      · exact Or.inl h1
      · exact Or.inr h1
    · rw [if_neg hle] at h
      rcases List.mem_cons.mp h with h1 | h1
      · exact Or.inr (by simp [h1])
      · rcases ih h1 with h2 | h2
        · exact Or.inl h2
        · exact Or.inr (by simp [h2])

theorem mem_sortByLe {le : α → α → Bool} {x : α} :
    ∀ {l : List α}, x ∈ sortByLe le l → x ∈ l := by
  intro l
  induction l with
  | nil => intro h; simp [sortByLe] at h
  | cons a rest ih =>
    intro h
    unfold sortByLe at h
    rcases mem_insertLe h with h1 | h1
    · simp [h1]
    · simp [ih h1]

theorem alookup_mem {α : Type} {k : String} {v : α} :
    ∀ {l : List (String × α)}, alookup k l = some v → (k, v) ∈ l := by
  intro l
  induction l with
  | nil => intro h; simp [alookup] at h
  | cons e rest ih =>
    obtain ⟨k', v'⟩ := e
    intro h
    by_cases hk : k' = k
    · subst hk
      simp [alookup] at h
      simp [h]
    · simp [alookup, hk] at h
      simp [ih h]

theorem aerase_subset {α : Type} {k : String} :
    ∀ {l : List (String × α)} {e}, e ∈ aerase k l → e ∈ l := by
  intro l
  induction l with
  | nil => intro e h; simp [aerase] at h
  | cons p rest ih =>
    obtain ⟨k', v'⟩ := p
    intro e h
    by_cases hk : k' = k
    · rw [aerase, if_pos hk] at h
      simp [h]
    · rw [aerase, if_neg hk] at h
      rcases List.mem_cons.mp h with h1 | h1
      · simp [h1]
      · simp [ih h1]

/-- Every entry of the cache returned by `get` was already present. -/
theorem get_entries_subset {α : Type} {c : LRUCache α} {k : String} {e} :
    e ∈ (c.get k).2.entries → e ∈ c.entries := by
  unfold LRUCache.get
  split
  · rename_i v halo
    intro h
    rcases List.mem_append.mp h with h1 | h1
    · exact aerase_subset h1
    · simp at h1
      rw [h1]
      exact alookup_mem halo
  · exact fun h => h

/-- Every entry of the cache returned by a successful `put` was already
present or is the newly inserted pair. -/
theorem put_entries_subset {α : Type} {c c' : LRUCache α} {k : String}
    {v : α} (h : c.put k v = some c') :
    ∀ e ∈ c'.entries, e ∈ c.entries ∨ e = (k, v) := by
  unfold LRUCache.put at h
  split at h
  · injection h with h
    subst h
    intro e he
    rcases List.mem_append.mp he with h1 | h1
    · exact Or.inl (aerase_subset h1)
    · simp at h1
      exact Or.inr h1
  · split at h
    · split at h
      · exact absurd h (by simp)
      · rename_i hfull x rest heq
        injection h with h
        subst h
        intro e he
        rcases List.mem_append.mp he with h1 | h1
        · exact Or.inl (by rw [heq]; exact List.mem_cons_of_mem _ h1)
        · simp at h1
          exact Or.inr h1
    · injection h with h
      subst h
      intro e he
      rcases List.mem_append.mp he with h1 | h1
      · exact Or.inl h1
      · simp at h1
        exact Or.inr h1

/-- Every result produced by the sampling browse loop carries score 0. -/
theorem browseGo_score (zf : String) (pp tp : Option String) :
    ∀ (ds : List (Option ZimEntry)) (rem : Nat),
      ∀ r ∈ browseGo zf pp tp ds rem, r.score = 0 := by
  intro ds
  induction ds with
  | nil => intro rem r h; simp [browseGo] at h
  | cons d rest ih =>
    intro rem r h
    cases rem with
    | zero => simp [browseGo] at h
    | succ rem' =>
      cases d with
      | none =>
        simp only [browseGo] at h
        exact ih _ r h
      | some e =>
        simp only [browseGo] at h
        split at h
        · rcases List.mem_cons.mp h with h1 | h1
          · rw [h1]
          · exact ih _ r h1
        · exact ih _ r h

/-- Every result of `search_single_zim` carries score 0. -/
theorem search_single_zim_score (o : ZimOracle) (f q : String)
    (max_results start_offset : Nat) :
    ∀ r ∈ search_single_zim o f q max_results start_offset,
      r.score = 0 := by
  intro r h
  unfold search_single_zim at h
  split at h
  · simp at h
  · split at h
    · rw [List.mem_filterMap] at h
      obtain ⟨p, _, hp⟩ := h
      cases hoe : o.getEntry f p with
      | none => rw [hoe] at hp; simp at hp
      | some e =>
        rw [hoe] at hp
        simp at hp
        rw [← hp]
    · simp at h

/-- C10: every `SearchEngineResult` produced by any search or browse
operation has score 0: `search_single_zim` and
`browse_entries_by_pattern` construct every result with the dataclass
default score `0.0`, and `search_multiple_zim` / `search_all_zim_files`
only sort, slice and cache those results (so along any run whose cache
holds only zero-score results — as every reachable cache does — the
output and the updated cache contain only zero-score results). -/
theorem claim_score_always_zero :
    (∀ (o : ZimOracle) (f q : String) (max_results start_offset : Nat),
      ∀ r ∈ search_single_zim o f q max_results start_offset,
        r.score = 0) ∧
    (∀ (o : ZimOracle) (cache : LRUCache (List SearchEngineResult))
        (zim_files : List String) (q : String)
        (max_results start_offset : Nat) res c' n,
      (∀ k v, (k, v) ∈ cache.entries → ∀ r ∈ v, r.score = 0) →
      search_multiple_zim o cache zim_files q max_results start_offset
        = some (res, c', n) →
      (∀ r ∈ res, r.score = 0) ∧
      (∀ k v, (k, v) ∈ c'.entries → ∀ r ∈ v, r.score = 0)) ∧
    (∀ (o : ZimOracle) (cache : LRUCache (List SearchEngineResult))
        (q : String) (max_results start_offset : Nat) res c' n,
      (∀ k v, (k, v) ∈ cache.entries → ∀ r ∈ v, r.score = 0) →
      search_all_zim_files o cache q max_results start_offset
        = some (res, c', n) →
      (∀ r ∈ res, r.score = 0) ∧
      (∀ k v, (k, v) ∈ c'.entries → ∀ r ∈ v, r.score = 0)) ∧
    (∀ (o : ZimOracle) (draws : List (Option ZimEntry)) (f : String)
        (pp tp : Option String) (limit : Nat),
      ∀ r ∈ browse_entries_by_pattern o draws f pp tp limit,
        r.score = 0) := by
  have hmulti : ∀ (o : ZimOracle) (cache : LRUCache (List SearchEngineResult))
      (zim_files : List String) (q : String)
      (max_results start_offset : Nat) res c' n,
      (∀ k v, (k, v) ∈ cache.entries → ∀ r ∈ v, r.score = 0) →
      search_multiple_zim o cache zim_files q max_results start_offset
        = some (res, c', n) →
      (∀ r ∈ res, r.score = 0) ∧
      (∀ k v, (k, v) ∈ c'.entries → ∀ r ∈ v, r.score = 0) := by
    intro o cache zim_files q max_results start_offset res c' n hinv h
    unfold search_multiple_zim at h
    split at h
    · simp at h
      obtain ⟨h1, h2, h3⟩ := h
      subst h1
      subst h2
      exact ⟨by simp, hinv⟩
    · rename_i clean hv
      split at h
      · rename_i cached c₁ heq
        simp only [Option.some.injEq] at h
        have h1 : cached = res := congrArg (fun t => t.1) h
        have h2 : c₁ = c' := congrArg (fun t => t.2.1) h
        unfold LRUCache.get at heq
        split at heq
        · rename_i v halo
          simp only [Prod.mk.injEq, Option.some.injEq] at heq
          obtain ⟨hv1, hv2⟩ := heq
          have hvz : ∀ r ∈ v, r.score = 0 := hinv _ v (alookup_mem halo)
          constructor
          · rw [← h1, ← hv1]
            exact hvz
          · intro k w hw r hr
            rw [← h2, ← hv2] at hw
            simp only at hw
            rcases List.mem_append.mp hw with hw1 | hw1
            · exact hinv k w (aerase_subset hw1) r hr
            · simp at hw1
              rw [hw1.2] at hr
              exact hvz r hr
        · simp at heq
      · rename_i c₁ heq
        unfold LRUCache.get at heq
        split at heq
        · simp at heq
        · rename_i halo
          simp only [Prod.mk.injEq, true_and] at heq
          have hpage : ∀ r ∈ ((sortByLe byTitleLen
              (zim_files.flatMap (fun f =>
                search_single_zim o f clean max_results 0))).drop
                start_offset).take max_results, r.score = 0 := by
            intro r hr
            have hr1 := List.mem_of_mem_take hr
            have hr2 := List.mem_of_mem_drop hr1
            have hr3 := mem_sortByLe hr2
            rw [List.mem_flatMap] at hr3
            obtain ⟨f, _, hf⟩ := hr3
            exact search_single_zim_score o f clean max_results 0 r hf
          split at h
          · simp at h
          · rename_i c₂ heq2
            simp only [Option.some.injEq] at h
            have h1 := congrArg (fun t =>
              (t : List SearchEngineResult ×
                LRUCache (List SearchEngineResult) × Nat).1) h
            have h2 : c₂ = c' := congrArg (fun t => t.2.1) h
            simp only at h1
            have hput' : cache.put (mkCacheKey zim_files clean max_results
                start_offset) (((sortByLe byTitleLen
                (zim_files.flatMap (fun f =>
                  search_single_zim o f clean max_results 0))).drop
                  start_offset).take max_results) = some c₂ := by
              rw [← heq] at heq2
              exact heq2
            constructor
            · rw [← h1]
              exact hpage
            · intro k w hw r hr
              rw [← h2] at hw
              rcases put_entries_subset hput' _ hw with hw1 | hw1
              · exact hinv k w hw1 r hr
              · have hwv : w = ((sortByLe byTitleLen
                    (zim_files.flatMap (fun f =>
                      search_single_zim o f clean max_results 0))).drop
                      start_offset).take max_results := by
                  have := congrArg Prod.snd hw1
                  simpa using this
                rw [hwv] at hr
                exact hpage r hr
  refine ⟨search_single_zim_score, hmulti, ?_, ?_⟩
  · intro o cache q max_results start_offset res c' n hinv h
    unfold search_all_zim_files at h
    split at h
    · simp at h
      obtain ⟨h1, h2, h3⟩ := h
      subst h1
      subst h2
      exact ⟨by simp, hinv⟩
    · exact hmulti o cache _ q max_results start_offset res c' n hinv h
  · intro o draws f pp tp limit r h
    unfold browse_entries_by_pattern at h
    split at h
    · exact browseGo_score f pp tp _ limit r h
    · simp at h

/- ===================== C3: multi-archive search, cache miss =========== -/

/-- C3: on a cache miss (and with a cache that can hold at least one
entry), `search_multiple_zim` equals the reference computation: query
every listed archive for up to `max_results` hits starting at offset 0,
concatenate the per-archive hits in order, sort the concatenation by
ascending title length (stably), slice `[start_offset,
start_offset + max_results)`, store the sliced list in the cache under
the composite key, and return it after `zim_files.length` per-archive
searches. -/
theorem claim_multi_search_miss (o : ZimOracle)
    (cache : LRUCache (List SearchEngineResult)) (zim_files : List String)
    (query clean : String) (max_results start_offset : Nat)
    (hq : validate_search_query query = Except.ok clean)
    (hmiss : alookup (mkCacheKey zim_files clean max_results start_offset)
      cache.entries = none)
    (hcap : 1 ≤ cache.max_size) :
    ∃ c₂, cache.put (mkCacheKey zim_files clean max_results start_offset)
        (((sortByLe byTitleLen (zim_files.flatMap (fun f =>
          search_single_zim o f clean max_results 0))).drop
          start_offset).take max_results) = some c₂ ∧
      search_multiple_zim o cache zim_files query max_results start_offset
        = some ((((sortByLe byTitleLen (zim_files.flatMap (fun f =>
            search_single_zim o f clean max_results 0))).drop
            start_offset).take max_results), c₂, zim_files.length) := by
  obtain ⟨c₂, hput⟩ := put_succeeds hcap
    (mkCacheKey zim_files clean max_results start_offset)
    (((sortByLe byTitleLen (zim_files.flatMap (fun f =>
      search_single_zim o f clean max_results 0))).drop
      start_offset).take max_results)
  refine ⟨c₂, hput, ?_⟩
  have hg : cache.get (mkCacheKey zim_files clean max_results start_offset)
      = (none, cache) := by
    unfold LRUCache.get
    rw [hmiss]
  unfold search_multiple_zim
  simp only [hq, hg, hput]

/-- C3 witness: a miss on a fresh capacity-5 cache over the one-archive
world. -/
theorem claim_multi_search_miss_witness :
    ∃ c₂, (LRUCache.init (α := List SearchEngineResult) 5).put
        (mkCacheKey ["a.zim"] "x" 20 0)
        (((sortByLe byTitleLen (["a.zim"].flatMap (fun f =>
          search_single_zim oneHitOracle f "x" 20 0))).drop 0).take 20)
        = some c₂ ∧
      search_multiple_zim oneHitOracle
        (LRUCache.init (α := List SearchEngineResult) 5) ["a.zim"] "x" 20 0
        = some ((((sortByLe byTitleLen (["a.zim"].flatMap (fun f =>
            search_single_zim oneHitOracle f "x" 20 0))).drop 0).take 20),
            c₂, (["a.zim"] : List String).length) :=
  claim_multi_search_miss oneHitOracle
    (LRUCache.init (α := List SearchEngineResult) 5) ["a.zim"] "x" "x"
    20 0 rfl rfl (by decide)

/- ===================== C4: idempotence under a live cache entry ======= -/

/-- C4: two consecutive `search_multiple_zim` calls with identical
arguments (no intervening eviction or clear) return the identical result
list, and the second call performs no per-archive search at all — it is
answered from the result cache keyed by the sorted archive list, the
cleaned query, the limit and the offset.  The hypothesis `hwf` is the
duplicate-free-keys invariant every reachable cache state satisfies. -/
theorem claim_multi_search_idempotent (o : ZimOracle)
    (cache : LRUCache (List SearchEngineResult)) (zim_files : List String)
    (query : String) (max_results start_offset : Nat)
    (r1 : List SearchEngineResult)
    (c1 : LRUCache (List SearchEngineResult)) (n1 : Nat)
    (hwf : (cache.entries.map Prod.fst).Nodup)
    (h1 : search_multiple_zim o cache zim_files query max_results
      start_offset = some (r1, c1, n1)) :
    ∃ c2, search_multiple_zim o c1 zim_files query max_results start_offset
      = some (r1, c2, 0) := by
  unfold search_multiple_zim at h1 ⊢
  split at h1
  · rename_i e hv
    simp only [Option.some.injEq] at h1
    have hr : ([] : List SearchEngineResult) = r1 :=
      congrArg (fun t => t.1) h1
    have hc : cache = c1 := congrArg (fun t => t.2.1) h1
    refine ⟨c1, ?_⟩
    have hgoal : (some ([], c1, 0) : Option (List SearchEngineResult ×
        LRUCache (List SearchEngineResult) × Nat)) = some (r1, c1, 0) := by
      rw [← hr]
    exact hgoal
  · rename_i clean hv
    split at h1
    · -- first call was itself a hit
      rename_i cached c₁ heq
      simp only [Option.some.injEq] at h1
      have hr : cached = r1 := congrArg (fun t => t.1) h1
      have hc : c₁ = c1 := congrArg (fun t => t.2.1) h1
      unfold LRUCache.get at heq
      split at heq
      · rename_i v halo
        simp only [Prod.mk.injEq, Option.some.injEq] at heq
        obtain ⟨hv1, hv2⟩ := heq
        have halo1 : alookup (mkCacheKey zim_files clean max_results
            start_offset) c1.entries = some r1 := by
          rw [← hc, ← hv2]
          simp only
          rw [← hr, ← hv1]
          exact alookup_self_append (alookup_aerase_of_nodup hwf)
        have hg : c1.get (mkCacheKey zim_files clean max_results
            start_offset) = (some r1, ⟨c1.max_size,
              aerase (mkCacheKey zim_files clean max_results start_offset)
                c1.entries
              ++ [(mkCacheKey zim_files clean max_results start_offset,
                  r1)]⟩) := by
          unfold LRUCache.get
          rw [halo1]
        refine ⟨⟨c1.max_size,
          aerase (mkCacheKey zim_files clean max_results start_offset)
            c1.entries
          ++ [(mkCacheKey zim_files clean max_results start_offset,
              r1)]⟩, ?_⟩
        simp only [hv, hg]
      · simp at heq
    · -- first call was a miss whose `put` succeeded
      rename_i c₁ heq
      unfold LRUCache.get at heq
      split at heq
      · simp at heq
      · rename_i halo
        simp only [Prod.mk.injEq, true_and] at heq
        split at h1
        · simp at h1
        · rename_i c₂ heq2
          simp only [Option.some.injEq] at h1
          have hr := congrArg (fun t =>
            (t : List SearchEngineResult ×
              LRUCache (List SearchEngineResult) × Nat).1) h1
          simp only at hr
          have hc : c₂ = c1 := congrArg (fun t => t.2.1) h1
          have hput' : cache.put (mkCacheKey zim_files clean max_results
              start_offset) (((sortByLe byTitleLen
              (zim_files.flatMap (fun f =>
                search_single_zim o f clean max_results 0))).drop
                start_offset).take max_results) = some c₂ := by
            rw [← heq] at heq2
            exact heq2
          have halo1 : alookup (mkCacheKey zim_files clean max_results
              start_offset) c1.entries = some r1 := by
            rw [← hc, ← hr]
            exact alookup_put hwf hput'
          have hg : c1.get (mkCacheKey zim_files clean max_results
              start_offset) = (some r1, ⟨c1.max_size,
                aerase (mkCacheKey zim_files clean max_results start_offset)
                  c1.entries
                ++ [(mkCacheKey zim_files clean max_results start_offset,
                    r1)]⟩) := by
            unfold LRUCache.get
            rw [halo1]
          refine ⟨⟨c1.max_size,
            aerase (mkCacheKey zim_files clean max_results start_offset)
              c1.entries
            ++ [(mkCacheKey zim_files clean max_results start_offset,
                r1)]⟩, ?_⟩
          simp only [hv, hg]

/-- C4 witness: a first call on a fresh cache (a miss performing one
per-archive search) followed by the same call again, answered from the
cache with zero per-archive searches. -/
theorem claim_multi_search_idempotent_witness :
    ∃ c2, search_multiple_zim oneHitOracle
      ⟨5, [("a.zim|x|20|0",
        [{ zim_file := "a.zim", path := "A/p1", title := "T", score := 0,
           preview := "", is_redirect := false }])]⟩
      ["a.zim"] "x" 20 0
      = some ([{ zim_file := "a.zim", path := "A/p1", title := "T",
                 score := 0, preview := "", is_redirect := false }],
          c2, 0) :=
  claim_multi_search_idempotent oneHitOracle
    (LRUCache.init (α := List SearchEngineResult) 5) ["a.zim"] "x" 20 0
    [{ zim_file := "a.zim", path := "A/p1", title := "T", score := 0,
       preview := "", is_redirect := false }]
    ⟨5, [("a.zim|x|20|0",
      [{ zim_file := "a.zim", path := "A/p1", title := "T", score := 0,
         preview := "", is_redirect := false }])]⟩ 1
    (by decide) (by decide)

/-- C10 witness: concrete zero-score runs of all four operations. -/
theorem claim_score_always_zero_witness :
    (∀ r ∈ search_single_zim oneHitOracle "a.zim" "x" 20 0,
      r.score = 0) ∧
    ((∀ r ∈ [(⟨"a.zim", "A/p1", "T", 0, "", false⟩ : SearchEngineResult)],
        r.score = 0) ∧
     (∀ k v, (k, v) ∈ (⟨5, [("a.zim|x|20|0",
          [⟨"a.zim", "A/p1", "T", 0, "", false⟩])]⟩
          : LRUCache (List SearchEngineResult)).entries →
        ∀ r ∈ v, r.score = 0)) ∧
    ((∀ r ∈ [(⟨"a.zim", "A/p1", "T", 0, "", false⟩ : SearchEngineResult)],
        r.score = 0) ∧
     (∀ k v, (k, v) ∈ (⟨5, [("a.zim|x|20|0",
          [⟨"a.zim", "A/p1", "T", 0, "", false⟩])]⟩
          : LRUCache (List SearchEngineResult)).entries →
        ∀ r ∈ v, r.score = 0)) ∧
    (∀ r ∈ browse_entries_by_pattern oneHitOracle
        [some ⟨"A/p1", "T", false⟩] "a.zim" none none 5, r.score = 0) :=
  ⟨claim_score_always_zero.1 oneHitOracle "a.zim" "x" 20 0,
   claim_score_always_zero.2.1 oneHitOracle
     (LRUCache.init (α := List SearchEngineResult) 5) ["a.zim"] "x" 20 0
     [⟨"a.zim", "A/p1", "T", 0, "", false⟩]
     ⟨5, [("a.zim|x|20|0", [⟨"a.zim", "A/p1", "T", 0, "", false⟩])]⟩ 1
     (by intro k v h; simp [LRUCache.init] at h) (by decide),
   claim_score_always_zero.2.2.1 oneHitOracle
     (LRUCache.init (α := List SearchEngineResult) 5) "x" 20 0
     [⟨"a.zim", "A/p1", "T", 0, "", false⟩]
     ⟨5, [("a.zim|x|20|0", [⟨"a.zim", "A/p1", "T", 0, "", false⟩])]⟩ 1
     (by intro k v h; simp [LRUCache.init] at h) (by decide),
   claim_score_always_zero.2.2.2 oneHitOracle
     [some ⟨"A/p1", "T", false⟩] "a.zim" none none 5⟩

/- ============ Decimal rendering is injective (for cache keys) ========= -/

theorem digitChar_inj_fin : ∀ (a b : Fin 10),
    Nat.digitChar a.val = Nat.digitChar b.val → a = b := by decide

theorem digitChar_inj_lt {a b : Nat} (ha : a < 10) (hb : b < 10)
    (h : Nat.digitChar a = Nat.digitChar b) : a = b :=
  congrArg Fin.val (digitChar_inj_fin ⟨a, ha⟩ ⟨b, hb⟩ h)

theorem map_digitChar_inj : ∀ {l1 l2 : List Nat},
    (∀ x ∈ l1, x < 10) → (∀ x ∈ l2, x < 10) →
    l1.map Nat.digitChar = l2.map Nat.digitChar → l1 = l2 := by
  intro l1
  induction l1 with
  | nil =>
    intro l2 _ _ h
    cases l2 with
    | nil => rfl
    | cons b t => simp at h
  | cons a t ih =>
    intro l2 h1 h2 h
    cases l2 with
    | nil => simp at h
    | cons b t2 =>
      simp only [List.map_cons, List.cons.injEq] at h
      have ha : a < 10 := h1 a (by simp)
      have hb : b < 10 := h2 b (by simp)
      have hab := digitChar_inj_lt ha hb h.1
      rw [hab, ih (fun x hx => h1 x (by simp [hx]))
        (fun x hx => h2 x (by simp [hx])) h.2]

theorem toDigitsCore_eq_digits :
    ∀ (fuel n : Nat) (acc : List Char), n < 10 ^ fuel → 1 ≤ n →
      Nat.toDigitsCore 10 fuel n acc
        = ((Nat.digits 10 n).map Nat.digitChar).reverse ++ acc := by
  intro fuel
  induction fuel with
  | zero =>
    intro n acc h hn
    simp at h
    omega
  | succ fuel ih =>
    intro n acc h hn
    simp only [Nat.toDigitsCore]
    by_cases h0 : n / 10 = 0
    · rw [if_pos h0]
      rw [Nat.digits_def' (by norm_num : (1 : Nat) < 10)
        (show 0 < n by omega), h0]
      simp
    · rw [if_neg h0]
      have hn' : 1 ≤ n / 10 := Nat.pos_of_ne_zero h0
      have hlt : n / 10 < 10 ^ fuel := by
        rw [Nat.div_lt_iff_lt_mul (by norm_num : (0 : Nat) < 10)]
        rw [pow_succ] at h
        exact h
      rw [ih (n / 10) (Nat.digitChar (n % 10) :: acc) hlt hn']
      rw [Nat.digits_def' (by norm_num : (1 : Nat) < 10)
        (show 0 < n by omega)]
      simp

theorem repr_eq_digits (n : Nat) (hn : 1 ≤ n) :
    Nat.repr n = (((Nat.digits 10 n).map Nat.digitChar).reverse).asString := by
  unfold Nat.repr Nat.toDigits
  rw [toDigitsCore_eq_digits (n + 1) n [] ?_ hn]
  · rw [List.append_nil]
  · have h1 : n < 2 ^ n := Nat.lt_two_pow n
    have h2 : 2 ^ n ≤ 10 ^ n := Nat.pow_le_pow_left (by norm_num) n
    have h3 : 10 ^ n < 10 ^ (n + 1) := by
      rw [pow_succ]
      have hp : 0 < 10 ^ n := pow_pos (by norm_num) n
      omega
    omega

theorem repr_pos_ne_repr_zero {b : Nat} (hb : 0 < b) :
    Nat.repr b ≠ "0" := by
  intro h
  rw [repr_eq_digits b hb] at h
  have hd := congrArg String.data h
  have hd' : ((Nat.digits 10 b).map Nat.digitChar).reverse = ['0'] := hd
  have hm : (Nat.digits 10 b).map Nat.digitChar = ['0'] := by
    have := congrArg List.reverse hd'
    simpa using this
  cases hdig : Nat.digits 10 b with
  | nil => rw [hdig] at hm; simp at hm
  | cons d t =>
    rw [hdig] at hm
    simp only [List.map_cons, List.cons.injEq] at hm
    have ht : t = [] := by
      have := hm.2
      cases t with
      | nil => rfl
      | cons x xs => simp at this
    have hdlt : d < 10 := Nat.digits_lt_base (by norm_num)
      (by rw [hdig]; simp)
    have hd0 : d = 0 := digitChar_inj_lt hdlt (by norm_num) hm.1
    have : b = 0 := by
      have hofd := Nat.ofDigits_digits 10 b
      rw [hdig, ht, hd0] at hofd
      simpa [Nat.ofDigits] using hofd.symm
    omega

theorem nat_repr_inj : ∀ {a b : Nat}, Nat.repr a = Nat.repr b → a = b := by
  intro a b h
  rcases Nat.eq_zero_or_pos a with ha | ha
  · rcases Nat.eq_zero_or_pos b with hb | hb
    · rw [ha, hb]
    · exfalso
      subst ha
      exact repr_pos_ne_repr_zero hb h.symm
  · rcases Nat.eq_zero_or_pos b with hb | hb
    · exfalso
      subst hb
      exact repr_pos_ne_repr_zero ha h
    · rw [repr_eq_digits a ha, repr_eq_digits b hb] at h
      have hd : ((Nat.digits 10 a).map Nat.digitChar).reverse
          = ((Nat.digits 10 b).map Nat.digitChar).reverse :=
        congrArg String.data h
      have hm := List.reverse_injective hd
      have hdig : Nat.digits 10 a = Nat.digits 10 b :=
        map_digitChar_inj
          (fun x hx => Nat.digits_lt_base (by norm_num) hx)
          (fun x hx => Nat.digits_lt_base (by norm_num) hx) hm
      rw [← Nat.ofDigits_digits 10 a, ← Nat.ofDigits_digits 10 b, hdig]

/-- Distinct offsets give distinct cache keys (the other key components
being equal). -/
theorem mkCacheKey_offset_inj {zim_files : List String} {clean : String}
    {L o1 o2 : Nat}
    (h : mkCacheKey zim_files clean L o1 = mkCacheKey zim_files clean L o2) :
    o1 = o2 := by
  unfold mkCacheKey at h
  have hd := congrArg (fun s : String => s.data.reverse) h
  simp only [String.data_append, List.reverse_append] at hd
  have hr := List.append_cancel_right hd
  have hdata : (Nat.repr o1).data = (Nat.repr o2).data :=
    List.reverse_injective hr
  have : Nat.repr o1 = Nat.repr o2 := by
    cases hrepr1 : Nat.repr o1 with
    | mk d1 =>
      cases hrepr2 : Nat.repr o2 with
      | mk d2 =>
        rw [hrepr1, hrepr2] at hdata
        simp at hdata
        rw [hdata]
  exact nat_repr_inj this

/- ===================== C5: pagination ================================= -/

theorem put_max_size {α : Type} {c c' : LRUCache α} {k : String} {v : α}
    (h : c.put k v = some c') : c'.max_size = c.max_size := by
  unfold LRUCache.put at h
  split at h
  · injection h with h
    rw [← h]
  · split at h
    · split at h
      · exact absurd h (by simp)
      · injection h with h
        rw [← h]
    · injection h with h
      rw [← h]

theorem not_mem_keys_of_alookup_none {α : Type} {k : String} :
    ∀ {l : List (String × α)}, alookup k l = none →
      k ∉ l.map Prod.fst := by
  intro l
  induction l with
  | nil => intro _ h; simp at h
  | cons e rest ih =>
    obtain ⟨k', v⟩ := e
    intro h hmem
    by_cases hk : k' = k
    · simp [alookup, hk] at h
    · simp [alookup, hk] at h
      rcases List.mem_cons.mp hmem with h1 | h1
      · exact hk h1.symm
      · exact ih h h1

/-- A fresh key distinct from the inserted one stays absent after a
successful `put`. -/
theorem alookup_none_put {α : Type} {c c' : LRUCache α} {k k₀ : String}
    {v : α} (hput : c.put k₀ v = some c') (hne : ¬ (k = k₀))
    (h : alookup k c.entries = none) : alookup k c'.entries = none := by
  cases halo : alookup k c'.entries with
  | none => rfl
  | some w =>
    exfalso
    rcases put_entries_subset hput _ (alookup_mem halo) with h1 | h1
    · exact not_mem_keys_of_alookup_none h
        (List.mem_map.mpr ⟨(k, w), h1, rfl⟩)
    · exact hne (congrArg Prod.fst h1)

/-- Each page returned by the threaded pagination loop is the next slice
of the fixed merged-and-sorted over-fetched list, so the concatenation of
the pages from `offset` on is exactly that list from `offset` on. -/
theorem runPages_slices (o : ZimOracle) (zim_files : List String)
    (query clean : String) (L : Nat)
    (hq : validate_search_query query = Except.ok clean) (hL : 1 ≤ L) :
    ∀ (fuel offset : Nat) (c : LRUCache (List SearchEngineResult)),
      1 ≤ c.max_size →
      (∀ off', offset ≤ off' →
        alookup (mkCacheKey zim_files clean L off') c.entries = none) →
      (sortByLe byTitleLen (zim_files.flatMap (fun f =>
        search_single_zim o f clean L 0))).length < offset + fuel * L →
      ∃ cEnd, runPages o zim_files query L c offset fuel
        = some ((sortByLe byTitleLen (zim_files.flatMap (fun f =>
            search_single_zim o f clean L 0))).drop offset, cEnd) := by
  intro fuel
  induction fuel with
  | zero =>
    intro offset c hcap hfresh hlen
    refine ⟨c, ?_⟩
    simp only [runPages]
    rw [List.drop_eq_nil_of_le (by omega)]
  | succ fuel ih =>
    intro offset c hcap hfresh hlen
    have hmiss := hfresh offset (Nat.le_refl offset)
    obtain ⟨c₂, hput⟩ := put_succeeds hcap
      (mkCacheKey zim_files clean L offset)
      (((sortByLe byTitleLen (zim_files.flatMap (fun f =>
        search_single_zim o f clean L 0))).drop offset).take L)
    have hg : c.get (mkCacheKey zim_files clean L offset) = (none, c) := by
      unfold LRUCache.get
      rw [hmiss]
    have hsmz : search_multiple_zim o c zim_files query L offset
        = some ((((sortByLe byTitleLen (zim_files.flatMap (fun f =>
            search_single_zim o f clean L 0))).drop offset).take L), c₂,
            zim_files.length) := by
      unfold search_multiple_zim
      simp only [hq, hg, hput]
    simp only [runPages, hsmz]
    by_cases hshort : ((((sortByLe byTitleLen (zim_files.flatMap (fun f =>
        search_single_zim o f clean L 0))).drop offset).take L)).length < L
    · rw [if_pos hshort]
      refine ⟨c₂, ?_⟩
      have hle : ((sortByLe byTitleLen (zim_files.flatMap (fun f =>
          search_single_zim o f clean L 0))).drop offset).length ≤ L := by
        rw [List.length_take] at hshort
        omega
      rw [List.take_of_length_le hle]
    · rw [if_neg hshort]
      have hlen2 : (sortByLe byTitleLen (zim_files.flatMap (fun f =>
          search_single_zim o f clean L 0))).length
          < (offset + L) + fuel * L := by
        have hmul : (fuel + 1) * L = fuel * L + L := by ring
        omega
      have hcap2 : 1 ≤ c₂.max_size := by
        rw [put_max_size hput]
        exact hcap
      have hfresh2 : ∀ off', offset + L ≤ off' →
          alookup (mkCacheKey zim_files clean L off') c₂.entries = none := by
        intro off' hoff'
        apply alookup_none_put hput
        · intro hh
          have := mkCacheKey_offset_inj hh
          omega
        · exact hfresh off' (by omega)
      obtain ⟨cEnd, hrec⟩ := ih (offset + L) c₂ hcap2 hfresh2 hlen2
      simp only [hrec]
      refine ⟨cEnd, ?_⟩
      have hdd : (sortByLe byTitleLen (zim_files.flatMap (fun f =>
          search_single_zim o f clean L 0))).drop (offset + L)
          = (((sortByLe byTitleLen (zim_files.flatMap (fun f =>
              search_single_zim o f clean L 0))).drop offset).drop L) := by
        rw [List.drop_drop]
      rw [hdd, List.take_append_drop]

theorem flatMap_congr {α β : Type} {f g : α → List β} :
    ∀ {l : List α}, (∀ x ∈ l, f x = g x) → l.flatMap f = l.flatMap g := by
  intro l
  induction l with
  | nil => intro _; rfl
  | cons a t ih =>
    intro h
    simp only [List.flatMap_cons]
    rw [h a (by simp), ih (fun x hx => h x (by simp [hx]))]

/-- C5 counterexample: one archive with two matches and page size 1.  The
pagination loop returns only the first hit (each per-archive fetch is
capped at `limit` results from offset 0, so the page at offset 1 slices
past the 1-element merged list and comes back empty), while a single
unpaginated fetch of size `M = 2` returns both hits — a hit is skipped,
refuting the claimed no-skip invariant. -/
theorem claim_pagination_cex :
    (runPages twoHitOracle ["a.zim"] "x" 1 (LRUCache.init 10) 0 5).map
        (fun t => t.1)
      = some [⟨"a.zim", "A/p1", "A/p1", 0, "", false⟩] ∧
    (search_multiple_zim twoHitOracle (LRUCache.init 10) ["a.zim"] "x"
        2 0).map (fun t => t.1)
      = some [⟨"a.zim", "A/p1", "A/p1", 0, "", false⟩,
              ⟨"a.zim", "A/p2", "A/p2", 0, "", false⟩] ∧
    ¬ ([(⟨"a.zim", "A/p1", "A/p1", 0, "", false⟩ : SearchEngineResult)].Perm
        [⟨"a.zim", "A/p1", "A/p1", 0, "", false⟩,
         ⟨"a.zim", "A/p2", "A/p2", 0, "", false⟩]) := by
  refine ⟨?_, ?_, ?_⟩ <;> decide

/-- C5 amended: within one cache lifetime, the concatenation of the pages
`search_multiple_zim(files, q, limit = L, offset = 0, L, 2L, …)` until a
short page equals exactly the merged over-fetched list — the sorted
concatenation of each archive's first (at most) `L` matches — with no
duplicate and no skip relative to that list; it equals the single
unpaginated fetch of size `M` exactly under the additional hypothesis
that every archive already returns all of its matches at limit `L`
(`hcomplete`).  When an archive holds more than `L` matches the
hypothesis fails and hits are skipped (see the counterexample). -/
theorem claim_pagination_amended (o : ZimOracle) (zim_files : List String)
    (query clean : String) (L M fuel : Nat)
    (cache : LRUCache (List SearchEngineResult))
    (hq : validate_search_query query = Except.ok clean)
    (hL : 1 ≤ L)
    (hcap : 1 ≤ cache.max_size)
    (hempty : cache.entries = [])
    (hfuel : (sortByLe byTitleLen (zim_files.flatMap (fun f =>
      search_single_zim o f clean L 0))).length < fuel * L)
    (hcomplete : ∀ f ∈ zim_files,
      search_single_zim o f clean L 0 = search_single_zim o f clean M 0)
    (hM : (sortByLe byTitleLen (zim_files.flatMap (fun f =>
      search_single_zim o f clean M 0))).length ≤ M) :
    ∃ cEnd c₂,
      runPages o zim_files query L cache 0 fuel
        = some (sortByLe byTitleLen (zim_files.flatMap (fun f =>
            search_single_zim o f clean L 0)), cEnd) ∧
      search_multiple_zim o (LRUCache.init cache.max_size) zim_files query
          M 0
        = some (sortByLe byTitleLen (zim_files.flatMap (fun f =>
            search_single_zim o f clean M 0)), c₂, zim_files.length) ∧
      sortByLe byTitleLen (zim_files.flatMap (fun f =>
          search_single_zim o f clean L 0))
        = sortByLe byTitleLen (zim_files.flatMap (fun f =>
            search_single_zim o f clean M 0)) := by
  obtain ⟨cEnd, h1⟩ := runPages_slices o zim_files query clean L hq hL
    fuel 0 cache hcap
    (fun off' _ => by rw [hempty]; rfl)
    (by omega)
  rw [List.drop_zero] at h1
  obtain ⟨c₂, hput⟩ := put_succeeds
    (c := LRUCache.init (α := List SearchEngineResult) cache.max_size)
    hcap (mkCacheKey zim_files clean M 0)
    (((sortByLe byTitleLen (zim_files.flatMap (fun f =>
      search_single_zim o f clean M 0))).drop 0).take M)
  have hg : (LRUCache.init (α := List SearchEngineResult)
      cache.max_size).get (mkCacheKey zim_files clean M 0)
      = (none, LRUCache.init cache.max_size) := by
    unfold LRUCache.get
    rfl
  have hsmz : search_multiple_zim o (LRUCache.init cache.max_size)
      zim_files query M 0
      = some ((((sortByLe byTitleLen (zim_files.flatMap (fun f =>
          search_single_zim o f clean M 0))).drop 0).take M), c₂,
          zim_files.length) := by
    unfold search_multiple_zim
    simp only [hq, hg, hput]
  have htake : (((sortByLe byTitleLen (zim_files.flatMap (fun f =>
      search_single_zim o f clean M 0))).drop 0).take M)
      = sortByLe byTitleLen (zim_files.flatMap (fun f =>
          search_single_zim o f clean M 0)) := by
    rw [List.drop_zero, List.take_of_length_le hM]
  refine ⟨cEnd, c₂, h1, ?_, ?_⟩
  · rw [hsmz, htake]
  · rw [flatMap_congr hcomplete]

/-- C5 amended, witness: one archive with exactly two matches, `L = M =
2` — the pages (one full page, then an empty short page) concatenate to
exactly the single unpaginated fetch. -/
theorem claim_pagination_amended_witness :
    ∃ cEnd c₂,
      runPages twoHitOracle ["a.zim"] "x" 2 (LRUCache.init 10) 0 2
        = some (sortByLe byTitleLen (["a.zim"].flatMap (fun f =>
            search_single_zim twoHitOracle f "x" 2 0)), cEnd) ∧
      search_multiple_zim twoHitOracle
          (LRUCache.init (LRUCache.init
            (α := List SearchEngineResult) 10).max_size)
          ["a.zim"] "x" 2 0
        = some (sortByLe byTitleLen (["a.zim"].flatMap (fun f =>
            search_single_zim twoHitOracle f "x" 2 0)), c₂,
            (["a.zim"] : List String).length) ∧
      sortByLe byTitleLen (["a.zim"].flatMap (fun f =>
          search_single_zim twoHitOracle f "x" 2 0))
        = sortByLe byTitleLen (["a.zim"].flatMap (fun f =>
            search_single_zim twoHitOracle f "x" 2 0)) :=
  claim_pagination_amended twoHitOracle ["a.zim"] "x" "x" 2 2 2
    (LRUCache.init 10) rfl (by decide) (by decide) rfl (by decide)
    (by decide) (by decide)
